import Mathlib

/-
Verification development for the caddy-esi middleware core.

The repository ships the test suites and the redis backend driver; the core
subsystems (scanner, attribute splitter, injector, circuit breaker, fetch
engine, header forwarding) are specified in spec.md and exercised by the
tests. Definitions below embed the redis driver from its source and model
the remaining subsystems from the specification text, validated against the
concrete expectations recorded in the test files.

Bodies and payloads are modelled as lists of characters; machine integers
as Nat (with explicit remarks where Go performs conversions); errors as a
set of behaviour kinds, mirroring the corestoreio errors package in which
a wrapped error can match several kinds.
-/

namespace CaddyEsi

/-- Error behaviour kinds of the errors package (spec section 7). -/
inductive ErrKind where
  | notValid
  | empty
  | notSupported
  | notFound
  | timeout
  | alreadyClosed
  | temporary
  | fatal
  | writeFailed
deriving DecidableEq, Repr

/-- An error value: the kinds it matches. Wrapping an error adds a kind in
front, so one error can match several kinds. -/
structure Err where
  kinds : List ErrKind
deriving DecidableEq, Repr

/-- One splice instruction: replace body bytes in the half-open interval
from start to endp with data (Go struct DataTag with fields Data, Start,
End; End is renamed endp because end is reserved). -/
structure DataTag where
  data : List Char
  start : Nat
  endp : Nat
deriving DecidableEq, Repr

/-- Modelled from the spec: the Injector algorithm of section 4.4 applied
to one chunk. lo is the cursor (absolute offset of the chunk's first
byte); the tag list is the not yet fully emitted tags in order. Returns
the bytes to emit for this chunk and the remaining tags. A tag whose endp
lies at or before the cursor was already emitted and is skipped; a chunk
entirely before the current tag is flushed verbatim; otherwise the prefix
up to min(start, chunk end) is emitted, then, when the chunk reaches endp,
the tag's data followed by the rest of the chunk, else the overlap with
the tag is suppressed until a later chunk reaches endp. -/
def injectChunk : Nat → List Char → List DataTag → List Char × List DataTag
  | _, chunk, [] => (chunk, [])
  | lo, chunk, t :: ts =>
    if t.endp ≤ lo then
      injectChunk lo chunk ts
    else if lo + chunk.length ≤ t.start then
      (chunk, t :: ts)
    else if t.endp ≤ lo + chunk.length then
      let r := injectChunk t.endp (chunk.drop (t.endp - lo)) ts
      (chunk.take (min t.start (lo + chunk.length) - lo) ++ t.data ++ r.1, r.2)
    else
      (chunk.take (min t.start (lo + chunk.length) - lo), t :: ts)

/-- Modelled from the spec: DataTags.InjectContent for one caller-chosen
chunk. The state is the cursor paired with the remaining tags; the cursor
advances by the chunk length (spec 4.4, cursor update). -/
def InjectContent (st : Nat × List DataTag) (chunk : List Char) :
    List Char × (Nat × List DataTag) :=
  ((injectChunk st.1 chunk st.2).1, (st.1 + chunk.length, (injectChunk st.1 chunk st.2).2))

/-- Feeding a sequence of chunks through InjectContent and concatenating
the emitted output. -/
def injectAllChunks : Nat × List DataTag → List (List Char) → List Char
  | _, [] => []
  | st, c :: cs =>
    (InjectContent st c).1 ++ injectAllChunks (InjectContent st c).2 cs

/-- The canonical splice: body with each tag's interval replaced by its
data, every tag's data appearing exactly once as a factor, in order.
pos is the absolute offset of the body slice's first byte. -/
def spliceAll : Nat → List Char → List DataTag → List Char
  | _, body, [] => body
  | pos, body, t :: ts =>
    body.take (t.start - pos) ++ t.data ++ spliceAll t.endp (body.drop (t.endp - pos)) ts

/-- Every tag's interval is non empty (guaranteed for tags produced by the
scanner: a complete tag spans at least its opening and closing markers). -/
def TagsPos (ts : List DataTag) : Prop := ∀ t ∈ ts, t.start < t.endp

/-- Well formed tag list for a body slice starting at pos with upper limit
lim: in order, non overlapping, non empty, within bounds. -/
def TagsWF : Nat → Nat → List DataTag → Prop
  | _, _, [] => True
  | pos, lim, t :: ts => pos ≤ t.start ∧ t.start < t.endp ∧ t.endp ≤ lim ∧ TagsWF t.endp lim ts

theorem TagsWF.pos_of {pos lim : Nat} {ts : List DataTag} (h : TagsWF pos lim ts) :
    TagsPos ts := by
  induction ts generalizing pos with
  | nil => intro t ht; cases ht
  | cons t ts ih =>
    obtain ⟨-, h2, -, h4⟩ := h
    intro x hx
    rcases List.mem_cons.1 hx with rfl | hx
    · exact h2
    · exact ih h4 x hx

theorem injectChunk_skip {t : DataTag} {lo : Nat} {c : List Char} {ts : List DataTag}
    (h : t.endp ≤ lo) : injectChunk lo c (t :: ts) = injectChunk lo c ts := by
  simp [injectChunk, h]

theorem injectChunk_flush {t : DataTag} {lo : Nat} {c : List Char} {ts : List DataTag}
    (h1 : ¬ t.endp ≤ lo) (h2 : lo + c.length ≤ t.start) :
    injectChunk lo c (t :: ts) = (c, t :: ts) := by
  simp [injectChunk, h1, h2]

theorem injectChunk_emit {t : DataTag} {lo : Nat} {c : List Char} {ts : List DataTag}
    (h1 : ¬ t.endp ≤ lo) (h2 : ¬ lo + c.length ≤ t.start) (h3 : t.endp ≤ lo + c.length) :
    injectChunk lo c (t :: ts) =
      (c.take (min t.start (lo + c.length) - lo) ++ t.data ++
        (injectChunk t.endp (c.drop (t.endp - lo)) ts).1,
       (injectChunk t.endp (c.drop (t.endp - lo)) ts).2) := by
  simp [injectChunk, h1, h2, h3]

theorem injectChunk_hold {t : DataTag} {lo : Nat} {c : List Char} {ts : List DataTag}
    (h1 : ¬ t.endp ≤ lo) (h2 : ¬ lo + c.length ≤ t.start) (h3 : ¬ t.endp ≤ lo + c.length) :
    injectChunk lo c (t :: ts) = (c.take (min t.start (lo + c.length) - lo), t :: ts) := by
  simp [injectChunk, h1, h2, h3]

theorem take_append_left {α : Type} (c1 c2 : List α) {k : Nat} (h : k ≤ c1.length) :
    (c1 ++ c2).take k = c1.take k := by
  rw [List.take_append_eq_append_take, Nat.sub_eq_zero_of_le h]
  simp

theorem take_append_right {α : Type} (c1 c2 : List α) {k : Nat} (h : c1.length ≤ k) :
    (c1 ++ c2).take k = c1 ++ c2.take (k - c1.length) := by
  rw [List.take_append_eq_append_take, List.take_of_length_le h]

theorem drop_append_right {α : Type} (c1 c2 : List α) {k : Nat} (h : c1.length ≤ k) :
    (c1 ++ c2).drop k = c2.drop (k - c1.length) := by
  rw [List.drop_append_eq_append_drop, List.drop_eq_nil_of_le h]
  simp

/-- Chunk composition: processing the concatenation of two chunks emits the
concatenation of what processing them one after the other emits, and leaves
the same remaining tags, provided every tag's interval is non empty. -/
theorem injectChunk_append (ts : List DataTag) (hpos : TagsPos ts) :
    ∀ (lo : Nat) (c1 c2 : List Char),
    injectChunk lo (c1 ++ c2) ts =
      ((injectChunk lo c1 ts).1 ++
        (injectChunk (lo + c1.length) c2 (injectChunk lo c1 ts).2).1,
       (injectChunk (lo + c1.length) c2 (injectChunk lo c1 ts).2).2) := by
  induction ts with
  | nil =>
    intro lo c1 c2
    simp [injectChunk]
  | cons t ts ih =>
    intro lo c1 c2
    have ht : t.start < t.endp := hpos t (List.mem_cons_self t ts)
    have hts : TagsPos ts := fun x hx => hpos x (List.mem_cons_of_mem t hx)
    have ihts := ih hts
    have hL : (c1 ++ c2).length = c1.length + c2.length := List.length_append c1 c2
    by_cases h1 : t.endp ≤ lo
    · rw [injectChunk_skip h1, injectChunk_skip h1, ihts lo c1 c2]
    · by_cases h2 : lo + (c1 ++ c2).length ≤ t.start
      · have hB1 : lo + c1.length ≤ t.start := by omega
        have hB2 : ¬ t.endp ≤ lo + c1.length := by omega
        have hB3 : lo + c1.length + c2.length ≤ t.start := by omega
        rw [injectChunk_flush h1 h2, injectChunk_flush h1 hB1]
        dsimp only
        rw [injectChunk_flush hB2 hB3]
      · by_cases h3 : t.endp ≤ lo + (c1 ++ c2).length
        · rw [injectChunk_emit h1 h2 h3]
          have hmin : min t.start (lo + (c1 ++ c2).length) = t.start := by omega
          rw [hmin]
          by_cases e1 : t.endp ≤ lo + c1.length
          · have hc2 : ¬ lo + c1.length ≤ t.start := by omega
            rw [injectChunk_emit h1 hc2 e1]
            dsimp only
            have hmin1 : min t.start (lo + c1.length) = t.start := by omega
            rw [hmin1]
            have hk : t.start - lo ≤ c1.length := by omega
            rw [take_append_left c1 c2 hk]
            have hd : t.endp - lo ≤ c1.length := by omega
            rw [List.drop_append_eq_append_drop, Nat.sub_eq_zero_of_le hd, List.drop_zero]
            rw [ihts t.endp (c1.drop (t.endp - lo)) c2]
            rw [List.length_drop]
            have harg : t.endp + (c1.length - (t.endp - lo)) = lo + c1.length := by omega
            rw [harg]
            simp [List.append_assoc]
          · by_cases s1 : lo + c1.length ≤ t.start
            · rw [injectChunk_flush h1 s1]
              dsimp only
              have g1 : ¬ t.endp ≤ lo + c1.length := e1
              have g2 : ¬ lo + c1.length + c2.length ≤ t.start := by omega
              have g3 : t.endp ≤ lo + c1.length + c2.length := by omega
              rw [injectChunk_emit g1 g2 g3]
              have hmin2 : min t.start (lo + c1.length + c2.length) = t.start := by omega
              rw [hmin2]
              rw [take_append_right c1 c2 (by omega : c1.length ≤ t.start - lo)]
              rw [drop_append_right c1 c2 (by omega : c1.length ≤ t.endp - lo)]
              have e1' : t.start - lo - c1.length = t.start - (lo + c1.length) := by omega
              have e2' : t.endp - lo - c1.length = t.endp - (lo + c1.length) := by omega
              rw [e1', e2']
              simp [List.append_assoc]
            · have g0 : ¬ lo + c1.length ≤ t.start := s1
              rw [injectChunk_hold h1 g0 e1]
              dsimp only
              have g1 : ¬ t.endp ≤ lo + c1.length := e1
              have g2 : ¬ lo + c1.length + c2.length ≤ t.start := by omega
              have g3 : t.endp ≤ lo + c1.length + c2.length := by omega
              rw [injectChunk_emit g1 g2 g3]
              have hmin1 : min t.start (lo + c1.length) = t.start := by omega
              have hmin2 : min t.start (lo + c1.length + c2.length) = t.start := by omega
              rw [hmin1, hmin2]
              have hz : t.start - (lo + c1.length) = 0 := by omega
              rw [hz]
              rw [take_append_left c1 c2 (by omega : t.start - lo ≤ c1.length)]
              rw [drop_append_right c1 c2 (by omega : c1.length ≤ t.endp - lo)]
              have e2' : t.endp - lo - c1.length = t.endp - (lo + c1.length) := by omega
              rw [e2']
              simp
        · rw [injectChunk_hold h1 h2 h3]
          have hmin : min t.start (lo + (c1 ++ c2).length) = t.start := by omega
          rw [hmin]
          by_cases s1 : lo + c1.length ≤ t.start
          · rw [injectChunk_flush h1 s1]
            dsimp only
            have g1 : ¬ t.endp ≤ lo + c1.length := by omega
            have g2 : ¬ lo + c1.length + c2.length ≤ t.start := by omega
            have g3 : ¬ t.endp ≤ lo + c1.length + c2.length := by omega
            rw [injectChunk_hold g1 g2 g3]
            have hmin2 : min t.start (lo + c1.length + c2.length) = t.start := by omega
            rw [hmin2]
            rw [take_append_right c1 c2 (by omega : c1.length ≤ t.start - lo)]
            have e1' : t.start - lo - c1.length = t.start - (lo + c1.length) := by omega
            rw [e1']
          · have g0 : ¬ lo + c1.length ≤ t.start := s1
            have g00 : ¬ t.endp ≤ lo + c1.length := by omega
            rw [injectChunk_hold h1 g0 g00]
            dsimp only
            have g2 : ¬ lo + c1.length + c2.length ≤ t.start := by omega
            have g3 : ¬ t.endp ≤ lo + c1.length + c2.length := by omega
            rw [injectChunk_hold g00 g2 g3]
            have hmin1 : min t.start (lo + c1.length) = t.start := by omega
            have hmin2 : min t.start (lo + c1.length + c2.length) = t.start := by omega
            rw [hmin1, hmin2]
            have hz : t.start - (lo + c1.length) = 0 := by omega
            rw [hz]
            rw [take_append_left c1 c2 (by omega : t.start - lo ≤ c1.length)]
            simp

/-- The tags remaining after a chunk are a suffix of the tags before it. -/
theorem injectChunk_tags_suffix (ts : List DataTag) :
    ∀ (lo : Nat) (c : List Char), (injectChunk lo c ts).2.IsSuffix ts := by
  induction ts with
  | nil =>
    intro lo c
    simp [injectChunk]
  | cons t ts ih =>
    intro lo c
    by_cases h1 : t.endp ≤ lo
    · rw [injectChunk_skip h1]
      exact (ih lo c).trans (List.suffix_cons t ts)
    · by_cases h2 : lo + c.length ≤ t.start
      · rw [injectChunk_flush h1 h2]
      · by_cases h3 : t.endp ≤ lo + c.length
        · rw [injectChunk_emit h1 h2 h3]
          exact (ih t.endp (c.drop (t.endp - lo))).trans (List.suffix_cons t ts)
        · rw [injectChunk_hold h1 h2 h3]

theorem TagsPos.of_suffix {ts ts' : List DataTag} (h : ts'.IsSuffix ts) (hp : TagsPos ts) :
    TagsPos ts' := fun t ht => hp t (h.subset ht)

/-- An empty chunk emits nothing and leaves the tags unchanged. -/
theorem injectChunk_nil (ts : List DataTag) (lo : Nat) :
    (injectChunk lo [] ts).1 = [] := by
  induction ts with
  | nil => simp [injectChunk]
  | cons t ts ih =>
    by_cases h1 : t.endp ≤ lo
    · rw [injectChunk_skip h1]; exact ih
    · by_cases h2 : lo + ([] : List Char).length ≤ t.start
      · rw [injectChunk_flush h1 h2]
      · by_cases h3 : t.endp ≤ lo + ([] : List Char).length
        · exact absurd (by simpa using h3) h1
        · rw [injectChunk_hold h1 h2 h3]
          simp

/-- Chunk-boundary invariance at the level of states: feeding any chunk
sequence emits exactly what one call on the concatenation emits. -/
theorem injectAllChunks_eq_join (chunks : List (List Char)) :
    ∀ (st : Nat × List DataTag), TagsPos st.2 →
    injectAllChunks st chunks = (injectChunk st.1 chunks.flatten st.2).1 := by
  induction chunks with
  | nil =>
    intro st _
    simp [injectAllChunks, injectChunk_nil]
  | cons c cs ih =>
    intro st hp
    have hsuf := injectChunk_tags_suffix st.2 st.1 c
    have hp' : TagsPos (injectChunk st.1 c st.2).2 := hp.of_suffix hsuf
    calc injectAllChunks st (c :: cs)
        = (injectChunk st.1 c st.2).1 ++
            injectAllChunks (st.1 + c.length, (injectChunk st.1 c st.2).2) cs := rfl
      _ = (injectChunk st.1 c st.2).1 ++
            (injectChunk (st.1 + c.length) cs.flatten (injectChunk st.1 c st.2).2).1 := by
          rw [ih (st.1 + c.length, (injectChunk st.1 c st.2).2) hp']
      _ = (injectChunk st.1 (c ++ cs.flatten) st.2).1 := by
          rw [injectChunk_append st.2 hp st.1 c cs.flatten]

/-- A single call on a whole well formed body equals the canonical splice:
each tag's data is substituted for its interval exactly once. -/
theorem injectChunk_eq_spliceAll (ts : List DataTag) :
    ∀ (pos : Nat) (body : List Char), TagsWF pos (pos + body.length) ts →
    (injectChunk pos body ts).1 = spliceAll pos body ts := by
  induction ts with
  | nil =>
    intro pos body _
    simp [injectChunk, spliceAll]
  | cons t ts ih =>
    intro pos body hwf
    obtain ⟨hw1, hw2, hw3, hw4⟩ := hwf
    have h1 : ¬ t.endp ≤ pos := by omega
    have h2 : ¬ pos + body.length ≤ t.start := by omega
    have h3 : t.endp ≤ pos + body.length := hw3
    rw [injectChunk_emit h1 h2 h3]
    have hmin : min t.start (pos + body.length) = t.start := by omega
    rw [hmin]
    show _ ++ _ ++ _ = _
    rw [spliceAll]
    have hlen : t.endp + (body.drop (t.endp - pos)).length = pos + body.length := by
      rw [List.length_drop]; omega
    have hwf' : TagsWF t.endp (t.endp + (body.drop (t.endp - pos)).length) ts := by
      rw [hlen]; exact hw4
    rw [ih t.endp (body.drop (t.endp - pos)) hwf']

/-- Whether pat is a prefix of l (byte exact matching, spec 4.1). -/
def startsWithList : List Char → List Char → Bool
  | [], _ => true
  | _ :: _, [] => false
  | p :: ps, c :: cs => p == c && startsWithList ps cs

/-- Whether pat is a suffix of l. -/
def endsWithList (pat l : List Char) : Bool :=
  startsWithList pat.reverse l.reverse

/-- Index of the first occurrence of pat in l, none when absent. -/
def findSub (pat : List Char) : List Char → Option Nat
  | [] => if startsWithList pat [] then some 0 else none
  | c :: cs =>
    if startsWithList pat (c :: cs) then some 0
    else (findSub pat (c :: cs).tail).map (· + 1)

theorem startsWithList_length {pat l : List Char} (h : startsWithList pat l = true) :
    pat.length ≤ l.length := by
  induction pat generalizing l with
  | nil => simp
  | cons p ps ih =>
    cases l with
    | nil => simp [startsWithList] at h
    | cons c cs =>
      simp only [startsWithList, Bool.and_eq_true] at h
      simpa [List.length_cons] using ih h.2

theorem findSub_bound {pat l : List Char} {j : Nat} (h : findSub pat l = some j) :
    j + pat.length ≤ l.length := by
  induction l generalizing j with
  | nil =>
    by_cases hs : startsWithList pat [] = true
    · simp only [findSub, if_pos hs, Option.some.injEq] at h
      subst h
      simpa using startsWithList_length hs
    · simp [findSub, hs] at h
  | cons c cs ih =>
    by_cases hs : startsWithList pat (c :: cs) = true
    · simp only [findSub, if_pos hs, Option.some.injEq] at h
      subst h
      simpa using startsWithList_length hs
    · simp only [findSub, if_neg hs, List.tail_cons, Option.map_eq_some'] at h
      obtain ⟨j0, hj0, rfl⟩ := h
      have := ih hj0
      simp [List.length_cons]
      omega

theorem findSub_none_tail {pat : List Char} {c : Char} {cs : List Char}
    (h : findSub pat (c :: cs) = none) : findSub pat cs = none := by
  by_cases hs : startsWithList pat (c :: cs) = true
  · simp [findSub, hs] at h
  · simp only [findSub, if_neg hs, List.tail_cons, Option.map_eq_none'] at h
    exact h

theorem findSub_none_drop {pat l : List Char} (h : findSub pat l = none) :
    ∀ k, findSub pat (l.drop k) = none := by
  induction l with
  | nil => intro k; simpa using h
  | cons c cs ih =>
    intro k
    cases k with
    | zero => simpa using h
    | succ k => exact ih (findSub_none_tail h) k

/-- The literal opening marker the scanner looks for (spec 4.1). -/
def esiOpenTag : List Char := "<esi:include".data

/-- The closing marker. -/
def closeMark : List Char := "/>".data

/-- One raw record emitted by the scanner: the bytes between the opening
marker's colon section and the closing marker, with absolute offsets;
start is the offset of the leading angle bracket and endp one past the
closing angle bracket (spec 4.1). -/
structure ScanRecord where
  rawTag : List Char
  start : Nat
  endp : Nat
deriving DecidableEq, Repr

/-- Modelled from the spec: the two state scanner of section 4.1, written
with explicit fuel so it computes by structural recursion (every step
consumes at least one input byte, so the input length is enough fuel).
State A searches for the opening marker byte by byte; state B reads to the
first closing marker, records the raw attributes (bytes after the five
marker bytes of the esi prefix) and resumes after it. An opening marker
with no closing marker before the end of input is silently dropped. -/
def scanFuel : Nat → Nat → List Char → List ScanRecord
  | 0, _, _ => []
  | _ + 1, _, [] => []
  | fuel + 1, pos, c :: cs =>
    if startsWithList esiOpenTag (c :: cs) then
      match findSub closeMark (c :: cs) with
      | some j =>
        ⟨((c :: cs).drop 5).take (j - 5), pos, pos + j + 2⟩ ::
          scanFuel fuel (pos + j + 2) ((c :: cs).drop (j + 2))
      | none => []
    else scanFuel fuel (pos + 1) cs

def scanAux (pos : Nat) (l : List Char) : List ScanRecord := scanFuel l.length pos l

theorem scanFuel_congr : ∀ (n : Nat) {m : Nat} (pos : Nat) (l : List Char),
    l.length ≤ n → l.length ≤ m → scanFuel n pos l = scanFuel m pos l := by
  intro n
  induction n with
  | zero =>
    intro m pos l hn _
    have : l = [] := List.eq_nil_of_length_eq_zero (Nat.le_zero.mp hn)
    subst this
    cases m <;> rfl
  | succ n ih =>
    intro m pos l hn hm
    cases l with
    | nil => cases m <;> rfl
    | cons c cs =>
      cases m with
      | zero => simp [List.length_cons] at hm
      | succ m =>
        rw [scanFuel, scanFuel]
        by_cases hpre : startsWithList esiOpenTag (c :: cs) = true
        · rw [if_pos hpre, if_pos hpre]
          cases hj : findSub closeMark (c :: cs) with
          | none => rfl
          | some j =>
            have hb : j + 2 ≤ (c :: cs).length := by
              have := findSub_bound hj
              simpa [closeMark] using this
            have hlen : ((c :: cs).drop (j + 2)).length = (c :: cs).length - (j + 2) :=
              List.length_drop ..
            dsimp only
            congr 1
            exact ih (pos + j + 2) ((c :: cs).drop (j + 2))
              (by rw [hlen]; simp [List.length_cons] at hn ⊢; omega)
              (by rw [hlen]; simp [List.length_cons] at hm ⊢; omega)
        · rw [if_neg hpre, if_neg hpre]
          exact ih (pos + 1) cs (by simp [List.length_cons] at hn; omega)
            (by simp [List.length_cons] at hm; omega)

theorem scanAux_cons (pos : Nat) (c : Char) (cs : List Char) :
    scanAux pos (c :: cs) =
      if startsWithList esiOpenTag (c :: cs) then
        match findSub closeMark (c :: cs) with
        | some j =>
          ⟨((c :: cs).drop 5).take (j - 5), pos, pos + j + 2⟩ ::
            scanAux (pos + j + 2) ((c :: cs).drop (j + 2))
        | none => []
      else scanAux (pos + 1) cs := by
  show scanFuel (c :: cs).length pos (c :: cs) = _
  rw [show (c :: cs).length = cs.length + 1 from List.length_cons c cs, scanFuel]
  by_cases hpre : startsWithList esiOpenTag (c :: cs) = true
  · rw [if_pos hpre, if_pos hpre]
    cases hj : findSub closeMark (c :: cs) with
    | none => rfl
    | some j =>
      have hb : j + 2 ≤ (c :: cs).length := by
        have := findSub_bound hj
        simpa [closeMark] using this
      have hlen : ((c :: cs).drop (j + 2)).length = (c :: cs).length - (j + 2) :=
        List.length_drop ..
      dsimp only
      congr 1
      exact scanFuel_congr cs.length (pos + j + 2) ((c :: cs).drop (j + 2))
        (by rw [hlen]; simp only [List.length_cons]; omega) (le_refl _)
  · rw [if_neg hpre, if_neg hpre]
    rfl

/-- Well formed scan records: ordered, non empty, within bounds. -/
def RecordsWF : Nat → Nat → List ScanRecord → Prop
  | _, _, [] => True
  | pos, lim, r :: rs => pos ≤ r.start ∧ r.start < r.endp ∧ r.endp ≤ lim ∧ RecordsWF r.endp lim rs

theorem RecordsWF.mono_left {pos pos' lim : Nat} {rs : List ScanRecord}
    (h : RecordsWF pos' lim rs) (hle : pos ≤ pos') : RecordsWF pos lim rs := by
  cases rs with
  | nil => trivial
  | cons r rs => exact ⟨le_trans hle h.1, h.2.1, h.2.2⟩

theorem scanAux_wf : ∀ (n : Nat) (l : List Char), l.length ≤ n →
    ∀ pos, RecordsWF pos (pos + l.length) (scanAux pos l) := by
  intro n
  induction n with
  | zero =>
    intro l hl pos
    have : l = [] := List.eq_nil_of_length_eq_zero (Nat.le_zero.mp hl)
    subst this
    simp [scanAux, scanFuel, RecordsWF]
  | succ n ihn =>
    intro l hl pos
    match l with
    | [] => simp [scanAux, scanFuel, RecordsWF]
    | c :: cs =>
      rw [scanAux_cons]
      by_cases hpre : startsWithList esiOpenTag (c :: cs) = true
      · rw [if_pos hpre]
        cases hj : findSub closeMark (c :: cs) with
        | none => exact trivial
        | some j =>
          have hb : j + 2 ≤ (c :: cs).length := by
            have := findSub_bound hj
            simpa [closeMark] using this
          refine ⟨le_refl pos, ?_, ?_, ?_⟩
          · show pos < pos + j + 2
            omega
          · show pos + j + 2 ≤ pos + (c :: cs).length
            omega
          · show RecordsWF (pos + j + 2) (pos + (c :: cs).length)
              (scanAux (pos + j + 2) ((c :: cs).drop (j + 2)))
            have hlen : ((c :: cs).drop (j + 2)).length = (c :: cs).length - (j + 2) :=
              List.length_drop ..
            have hrec := ihn ((c :: cs).drop (j + 2))
              (by rw [hlen]; simp [List.length_cons]; simp [List.length_cons] at hl; omega)
              (pos + j + 2)
            have harg : pos + j + 2 + ((c :: cs).drop (j + 2)).length
                = pos + (c :: cs).length := by
              rw [hlen]; omega
            rwa [harg] at hrec
      · rw [if_neg hpre]
        have hrec := ihn cs (by simpa [List.length_cons] using hl) (pos + 1)
        have harg : pos + 1 + cs.length = pos + (c :: cs).length := by
          simp [List.length_cons]; omega
        rw [harg] at hrec
        exact hrec.mono_left (by omega)

/-- ASCII white space as the splitter sees it. -/
def isSpaceChar (c : Char) : Bool :=
  c == ' ' || c.toNat == 9 || c.toNat == 10 || c.toNat == 13

/-- A single or double quote. -/
def isQuoteChar (c : Char) : Bool := c.toNat == 34 || c.toNat == 39

def isDigitChar (c : Char) : Bool := 48 ≤ c.toNat && c.toNat ≤ 57

/-- Trim ASCII white space from both ends. -/
def trimChars (cs : List Char) : List Char :=
  ((cs.dropWhile isSpaceChar).reverse.dropWhile isSpaceChar).reverse

/-- Modelled from the spec: the AttributeSplitter's tokenizer (section 4.2).
Fields are separated by white space and the equals sign outside quoted
regions; a quote opens a region closed only by the same quote, and the
quotes stay part of the field (they are stripped later), so template
expressions and the other quote pass through verbatim. q is the currently
open quote, acc the current field reversed. -/
def fieldsAux : Option Char → List Char → List Char → List (List Char)
  | _, acc, [] => if acc.isEmpty then [] else [acc.reverse]
  | some q, acc, c :: cs =>
    if c == q then fieldsAux none (c :: acc) cs
    else fieldsAux (some q) (c :: acc) cs
  | none, acc, c :: cs =>
    if isQuoteChar c then fieldsAux (some c) (c :: acc) cs
    else if isSpaceChar c || c == '=' then
      if acc.isEmpty then fieldsAux none [] cs
      else acc.reverse :: fieldsAux none [] cs
    else fieldsAux none (c :: acc) cs

def splitAttrFields (raw : List Char) : List (List Char) := fieldsAux none [] raw

/-- Strip the surrounding quote characters of a value (first and last
character, when the value has at least three characters) and trim the
result (spec 4.2: quotes must balance, inner and trailing white space
around values is trimmed). -/
def stripQuotesTrim (cs : List Char) : List Char :=
  if 3 ≤ cs.length then trimChars ((cs.drop 1).take (cs.length - 2))
  else trimChars cs

/-- Process an even field list in place: every second field is a value and
gets its quotes stripped and its ends trimmed. -/
def processPairs : List (List Char) → List String
  | k :: v :: rest => String.mk k :: String.mk (stripQuotesTrim v) :: processPairs rest
  | l => l.map String.mk

/-- Modelled from the spec: SplitAttributes (section 4.2, S6). The leading
token (the include word) is discarded; an odd number of remaining tokens
means keys and values do not pair up, as when a quote is unbalanced, and
yields NotValid. Empty or white space only input yields an empty result. -/
def SplitAttributes (raw : List Char) : Except Err (List String) :=
  match splitAttrFields raw with
  | [] => .ok []
  | _ :: rest =>
    if rest.length % 2 == 1 then .error ⟨[.notValid]⟩
    else .ok (processPairs rest)

/-- ASCII lower casing. -/
def lowerAscii (c : Char) : Char :=
  if 65 ≤ c.toNat ∧ c.toNat ≤ 90 then Char.ofNat (c.toNat + 32) else c

/-- ASCII upper casing. -/
def upperAscii (c : Char) : Char :=
  if 97 ≤ c.toNat ∧ c.toNat ≤ 122 then Char.ofNat (c.toNat - 32) else c

def lowerStr (s : String) : String := String.mk (s.data.map lowerAscii)

/-- Canonical header key: the first letter and every letter following a
hyphen upper cased, every other letter lower cased (the behaviour of the
Go standard header canonicalization the spec references). -/
def canonHeaderAux : Bool → List Char → List Char
  | _, [] => []
  | wordStart, c :: cs =>
    (if wordStart then upperAscii c else lowerAscii c) :: canonHeaderAux (c == '-') cs

def canonicalHeaderKey (s : String) : String := String.mk (canonHeaderAux true s.data)

/-- Split at every comma, keeping empty segments. -/
def splitComma : List Char → List (List Char)
  | [] => [[]]
  | c :: rest =>
    if c == ',' then [] :: splitComma rest
    else
      match splitComma rest with
      | [] => [[c]]
      | s :: ss => (c :: s) :: ss

/-- A comma separated list of header names, trimmed and canonicalized
(spec 4.3: header name lists are canonicalized). -/
def commaListCanonical (v : String) : List String :=
  (splitComma v.data).map fun s => canonicalHeaderKey (String.mk (trimChars s))

def digitsToNat (ds : List Char) : Nat :=
  ds.foldl (fun a c => a * 10 + (c.toNat - 48)) 0

/-- Modelled from the spec: duration parsing for the timeout and ttl
attributes, digits followed by a unit; anything else is rejected (the Go
duration syntax restricted to the whole-number forms the tags use).
The result is in nanoseconds. -/
def parseDuration (v : String) : Option Nat :=
  let ds := v.data.takeWhile isDigitChar
  let rest := v.data.dropWhile isDigitChar
  if ds.isEmpty then none
  else
    match String.mk rest with
    | "ns" => some (digitsToNat ds)
    | "us" => some (digitsToNat ds * 1000)
    | "ms" => some (digitsToNat ds * 1000000)
    | "s" => some (digitsToNat ds * 1000000000)
    | "m" => some (digitsToNat ds * 60000000000)
    | "h" => some (digitsToNat ds * 3600000000000)
    | _ => none

/-- Modelled from the spec: human readable byte sizes for maxbodysize,
such as 10kb or 1MB, with decimal multiples. -/
def parseHumanBytes (v : String) : Option Nat :=
  let ds := v.data.takeWhile isDigitChar
  let rest := v.data.dropWhile isDigitChar
  if ds.isEmpty then none
  else
    match String.mk (rest.map lowerAscii) with
    | "" => some (digitsToNat ds)
    | "b" => some (digitsToNat ds)
    | "kb" => some (digitsToNat ds * 1000)
    | "mb" => some (digitsToNat ds * 1000000)
    | "gb" => some (digitsToNat ds * 1000000000)
    | _ => none

/-- Boolean attribute values (spec 4.3). -/
def parseBoolGo (v : String) : Option Bool :=
  match v with
  | "1" | "true" => some true
  | "0" | "false" => some false
  | _ => none

/-- The environment the entity builder consults: the registered scheme
factories (lower cased) and the loadable onerror files. -/
structure Env where
  schemes : List String
  onErrorFiles : List (String × String)
deriving DecidableEq, Repr

/-- The default scheme factories (spec section 6). -/
def defaultSchemes : List String := ["http", "https", "redis", "memcache", "grpc"]

def lookupFile : List (String × String) → String → Option String
  | [], _ => none
  | (k, v) :: rest, name => if k == name then some v else lookupFile rest name

/-- The scheme of a url, when it has one. -/
def schemeOf (url : String) : Option String :=
  (findSub "://".data url.data).map fun i => String.mk (url.data.take i)

/-- Modelled from the spec: building one Resource from a src value. A url
with a scheme requires the scheme (case folded) to be registered,
NotSupported otherwise; a bare alias resolves later against the handler
table (spec sections 3 and 6). -/
def NewResource (env : Env) (idx : Nat) (url : String) : Except Err (Nat × String) :=
  match schemeOf url with
  | some sch =>
    if env.schemes.contains (lowerStr sch) then .ok (idx, url)
    else .error ⟨[.notSupported]⟩
  | none => .ok (idx, url)

/-- The typed per entity configuration (spec section 3, Entity). -/
structure Config where
  resources : List (Nat × String) := []
  key : String := ""
  timeout : Nat := 0
  ttl : Nat := 0
  maxBodySize : Nat := 0
  onError : List Char := []
  forwardHeaders : List String := []
  forwardHeadersAll : Bool := false
  returnHeaders : List String := []
  returnHeadersAll : Bool := false
  forwardPostData : Bool := false
  coalesce : Bool := false
  printDebug : Bool := false
deriving DecidableEq, Repr

/-- Modelled from the spec: the effect of one attribute pair on the entity
under construction (the table of section 4.3). Keys outside the table are
NotSupported unless they begin with x, in which case the pair is ignored. -/
def stepPair (env : Env) (cfg : Config) (kv : String × String) : Except Err Config :=
  if kv.1 == "src" then
    match NewResource env cfg.resources.length kv.2 with
    | .error e => .error e
    | .ok r => .ok { cfg with resources := cfg.resources ++ [r] }
  else if kv.1 == "key" then .ok { cfg with key := kv.2 }
  else if kv.1 == "timeout" then
    match parseDuration kv.2 with
    | some d => .ok { cfg with timeout := d }
    | none => .error ⟨[.notValid]⟩
  else if kv.1 == "ttl" then
    match parseDuration kv.2 with
    | some d => .ok { cfg with ttl := d }
    | none => .error ⟨[.notValid]⟩
  else if kv.1 == "maxbodysize" then
    match parseHumanBytes kv.2 with
    | some b => .ok { cfg with maxBodySize := b }
    | none => .error ⟨[.notValid]⟩
  else if kv.1 == "onerror" then
    if endsWithList (".html").data kv.2.data then
      match lookupFile env.onErrorFiles kv.2 with
      | some content => .ok { cfg with onError := content.data }
      | none => .error ⟨[.fatal]⟩
    else .ok { cfg with onError := kv.2.data }
  else if kv.1 == "forwardheaders" then
    if String.mk (trimChars kv.2.data) == "all" then .ok { cfg with forwardHeadersAll := true }
    else .ok { cfg with forwardHeaders := commaListCanonical kv.2 }
  else if kv.1 == "returnheaders" then
    if String.mk (trimChars kv.2.data) == "all" then .ok { cfg with returnHeadersAll := true }
    else .ok { cfg with returnHeaders := commaListCanonical kv.2 }
  else if kv.1 == "forwardpostdata" then
    match parseBoolGo kv.2 with
    | some b => .ok { cfg with forwardPostData := b }
    | none => .error ⟨[.notValid]⟩
  else if kv.1 == "coalesce" then
    match parseBoolGo kv.2 with
    | some b => .ok { cfg with coalesce := b }
    | none => .error ⟨[.notValid]⟩
  else if kv.1 == "printdebug" then
    match parseBoolGo kv.2 with
    | some b => .ok { cfg with printDebug := b }
    | none => .error ⟨[.notValid]⟩
  else if startsWithList ("x").data kv.1.data then .ok cfg
  else .error ⟨[.notSupported]⟩

def foldPairs (env : Env) : Config → List (String × String) → Except Err Config
  | cfg, [] => .ok cfg
  | cfg, kv :: rest =>
    match stepPair env cfg kv with
    | .error e => .error e
    | .ok cfg2 => foldPairs env cfg2 rest

def toPairs : List String → List (String × String)
  | k :: v :: rest => (k, v) :: toPairs rest
  | _ => []

/-- Modelled from the spec: Entity.ParseRaw, splitting the raw attribute
bytes and folding the pairs into a configuration; at least one src is
required, Empty otherwise (spec 4.3, post conditions). -/
def ParseRaw (env : Env) (raw : List Char) : Except Err Config :=
  match SplitAttributes raw with
  | .error e => .error e
  | .ok fields =>
    match foldPairs env {} (toPairs fields) with
    | .error e => .error e
    | .ok cfg => if cfg.resources.isEmpty then .error ⟨[.empty]⟩ else .ok cfg

/-- One parsed include marker: its raw attribute bytes, the splice record
and the typed configuration. -/
structure Entity where
  rawTag : List Char
  dataTag : DataTag
  config : Config
deriving DecidableEq, Repr

/-- Building Entities from scan records; the first failure aborts the
whole parse (spec 4.1, failure policy: no partial entities). -/
def parseEntities (env : Env) : List ScanRecord → Except Err (List Entity)
  | [] => .ok []
  | r :: rs =>
    match ParseRaw env r.rawTag with
    | .error e => .error e
    | .ok cfg =>
      match parseEntities env rs with
      | .error e => .error e
      | .ok es => .ok (⟨r.rawTag, ⟨[], r.start, r.endp⟩, cfg⟩ :: es)

/-- Modelled from the spec: esitag.Parse, the scanner followed by the
entity builder. -/
def Parse (env : Env) (body : List Char) : Except Err (List Entity) :=
  parseEntities env (scanAux 0 body)

instance exceptDecEq {ε α : Type} [DecidableEq ε] [DecidableEq α] :
    DecidableEq (Except ε α) := fun x y =>
  match x, y with
  | .ok a, .ok b =>
    if h : a = b then .isTrue (by rw [h]) else .isFalse (by intro hc; cases hc; exact h rfl)
  | .error a, .error b =>
    if h : a = b then .isTrue (by rw [h]) else .isFalse (by intro hc; cases hc; exact h rfl)
  | .ok _, .error _ => .isFalse (by intro hc; cases hc)
  | .error _, .ok _ => .isFalse (by intro hc; cases hc)

/-- The DataTags a fetch produces for parsed entities: the parsed byte
ranges with the fetched payload substituted per entity. -/
def mkTags (dataOf : Entity → List Char) (es : List Entity) : List DataTag :=
  es.map fun e => ⟨dataOf e, e.dataTag.start, e.dataTag.endp⟩

theorem parseEntities_tagsWF (env : Env) :
    ∀ (rs : List ScanRecord) (es : List Entity) (pos lim : Nat),
    RecordsWF pos lim rs → parseEntities env rs = .ok es →
    ∀ (dataOf : Entity → List Char), TagsWF pos lim (mkTags dataOf es) := by
  intro rs
  induction rs with
  | nil =>
    intro es pos lim _ hok dataOf
    simp only [parseEntities, Except.ok.injEq] at hok
    subst hok
    trivial
  | cons r rs ih =>
    intro es pos lim hwf hok dataOf
    simp only [parseEntities] at hok
    rcases hq : ParseRaw env r.rawTag with e | cfg
    · rw [hq] at hok
      cases hok
    · rw [hq] at hok
      rcases hq2 : parseEntities env rs with e2 | es2
      · rw [hq2] at hok
        cases hok
      · rw [hq2] at hok
        simp only [Except.ok.injEq] at hok
        subst hok
        exact ⟨hwf.1, hwf.2.1, hwf.2.2.1, ih es2 r.endp lim hwf.2.2.2 hq2 dataOf⟩

/-- C1: chunk boundary invariance of injection. For every DataTags set
obtained by parsing a body and every partition of the body into contiguous
chunks, feeding the chunks one at a time to InjectContent and
concatenating the emitted output produces exactly the bytes of injecting
the whole body in one call, and that single call equals the canonical
splice in which each tag's data appears exactly once, regardless of where
the chunk boundaries fall. -/
theorem InjectContent_chunk_boundary_invariance
    (env : Env) (body : List Char) (ents : List Entity)
    (dataOf : Entity → List Char) (chunks : List (List Char))
    (hparse : Parse env body = .ok ents)
    (hchunks : chunks.flatten = body) :
    injectAllChunks (0, mkTags dataOf ents) chunks
        = (injectChunk 0 body (mkTags dataOf ents)).1
      ∧ (injectChunk 0 body (mkTags dataOf ents)).1
        = spliceAll 0 body (mkTags dataOf ents) := by
  have hwfr : RecordsWF 0 (0 + body.length) (scanAux 0 body) :=
    scanAux_wf body.length body le_rfl 0
  have hwft : TagsWF 0 (0 + body.length) (mkTags dataOf ents) :=
    parseEntities_tagsWF env (scanAux 0 body) ents 0 (0 + body.length) hwfr hparse dataOf
  refine ⟨?_, ?_⟩
  · have h := injectAllChunks_eq_join chunks (0, mkTags dataOf ents) hwft.pos_of
    rw [hchunks] at h
    exact h
  · exact injectChunk_eq_spliceAll (mkTags dataOf ents) 0 body hwft

def envW : Env := ⟨defaultSchemes, []⟩

def bodyW : List Char :=
  ("abcdefg<esi:include src=\"url1\"/>u p<esi:include src=\"url2\" />k").data

def entsW : List Entity :=
  match Parse envW bodyW with
  | .ok es => es
  | .error _ => []

def dataOfW : Entity → List Char :=
  fun e => if e.dataTag.start == 7 then ("X").data else ("Y").data

def chunksW : List (List Char) :=
  [("abcdefg<esi:inc").data, ("lude src=\"url1\"/>u p<esi").data,
   (":include src=\"url2\" />k").data]

theorem InjectContent_chunk_boundary_invariance_witness :
    injectAllChunks (0, mkTags dataOfW entsW) chunksW
        = (injectChunk 0 bodyW (mkTags dataOfW entsW)).1
      ∧ (injectChunk 0 bodyW (mkTags dataOfW entsW)).1
        = spliceAll 0 bodyW (mkTags dataOfW entsW) :=
  InjectContent_chunk_boundary_invariance envW bodyW entsW dataOfW chunksW
    (by decide) (by decide)

/-- The derived circuit breaker states (Go constants CBStateClosed,
CBStateOpen, CBStateHalfOpen; the middle one is named opened because open
is reserved). -/
inductive CBStateKind where
  | closed
  | opened
  | halfOpen
deriving DecidableEq, Repr

/-- Modelled from the spec: the per resource circuit breaker state, a
failure counter and the last failure time in unix seconds (spec 4.6). -/
structure CircuitBreaker where
  failures : Nat
  lastFailureUnix : Int
deriving DecidableEq, Repr

/-- Default maximum failures before the breaker opens (CBMaxFailures;
the test drives the counter to 2 + 12 = 14 and expects Open). -/
def CBMaxFailures : Nat := 12

/-- Modelled from the spec: RecordFailure increments the counter by one
and stamps the current time (spec 4.6). -/
def CBRecordFailure (now : Int) (cb : CircuitBreaker) : CircuitBreaker :=
  ⟨cb.failures + 1, now⟩

/-- Modelled from the spec: the derived state (spec 4.6): Closed below the
failure bound; Open while at or above it and inside the calm window;
HalfOpen otherwise. -/
def CBState (maxFailures : Nat) (calmThreshold : Int) (now : Int)
    (cb : CircuitBreaker) : CBStateKind :=
  if cb.failures < maxFailures then .closed
  else if now - cb.lastFailureUnix < calmThreshold then .opened
  else .halfOpen

/-- C3: CircuitBreaker behaviour. Every CBRecordFailure call increments
the failure counter by exactly one and sets the last failure timestamp to
the current time; CBState returns Closed whenever failures are below
maxFailures, and Open whenever failures reached maxFailures and fewer
than the calm threshold seconds have elapsed since the last failure. -/
theorem CircuitBreaker_behaviour :
    (∀ (cb : CircuitBreaker) (now : Int),
        (CBRecordFailure now cb).failures = cb.failures + 1
        ∧ (CBRecordFailure now cb).lastFailureUnix = now)
    ∧ (∀ (maxFailures : Nat) (calmThreshold now : Int) (cb : CircuitBreaker),
        cb.failures < maxFailures →
        CBState maxFailures calmThreshold now cb = .closed)
    ∧ (∀ (maxFailures : Nat) (calmThreshold now : Int) (cb : CircuitBreaker),
        maxFailures ≤ cb.failures → now - cb.lastFailureUnix < calmThreshold →
        CBState maxFailures calmThreshold now cb = .opened) := by
  refine ⟨fun cb now => ⟨rfl, rfl⟩, ?_, ?_⟩
  · intro maxFailures calm now cb h
    simp [CBState, h]
  · intro maxFailures calm now cb h1 h2
    simp [CBState, Nat.not_lt.mpr h1, h2]

/-- The breaker scenario of the resource test: two failures keep the
breaker Closed, driving the counter to CBMaxFailures + 2 = 14 opens it
within the calm window. -/
theorem CircuitBreaker_behaviour_witness :
    (CBRecordFailure 100 ⟨13, 1⟩).failures = 14
    ∧ CBState CBMaxFailures 60 100 ⟨2, 100⟩ = CBStateKind.closed
    ∧ CBState CBMaxFailures 60 100 ⟨14, 100⟩ = CBStateKind.opened :=
  ⟨by
      have h := CircuitBreaker_behaviour.1 ⟨13, 1⟩ 100
      rw [h.1],
    CircuitBreaker_behaviour.2.1 CBMaxFailures 60 100 ⟨2, 100⟩ (by decide),
    CircuitBreaker_behaviour.2.2 CBMaxFailures 60 100 ⟨14, 100⟩ (by decide) (by decide)⟩

/-- The fields of esitag.ResourceArgs the redis driver reads: the url, the
presence of the external request, and the owning tag's timeout, max body
size and key. -/
structure ResourceArgs where
  url : String
  hasExternalReq : Bool
  timeout : Nat
  maxBodySize : Nat
  key : String
deriving DecidableEq, Repr

/-- args.ValidateWithKey as the backend tests record it: Empty for a
missing url, external request, timeout, max body size or key, checked in
that order. -/
def ValidateWithKey (args : ResourceArgs) : Except Err Unit :=
  if args.url == "" then .error ⟨[.empty]⟩
  else if !args.hasExternalReq then .error ⟨[.empty]⟩
  else if args.timeout == 0 then .error ⟨[.empty]⟩
  else if args.maxBodySize == 0 then .error ⟨[.empty]⟩
  else if args.key == "" then .error ⟨[.empty]⟩
  else .ok ()

/-- Embedded from src/esitag/backend/redis.go, doRequest: validate the
args, GET the tag's key from the store (a nil reply is NotFound), then
truncate the value to MaxBodySize when it is longer and the bound is
positive, exactly the source's
value = value[:mbs] when len(value) > mbs and mbs > 0.
The store stands for the redis connection; the Go int conversion of the
uint64 bound behaves identically for bounds below 2^63, which covers
every representable body length. -/
def doRequest (args : ResourceArgs) (store : String → Option (List Char)) :
    Except Err (List Char) :=
  match ValidateWithKey args with
  | .error e => .error e
  | .ok _ =>
    match store args.key with
    | none => .error ⟨[.notFound]⟩
    | some value =>
      .ok (if args.maxBodySize < value.length ∧ 0 < args.maxBodySize then
            value.take args.maxBodySize
          else value)

/-- Embedded from src/esitag/backend/redis.go, doRequestCancel: the
cancellable variant runs the same fetch in a goroutine and returns the
context error when the request is cancelled first (the race itself is
timing, its value outcome is the same fetch and truncation). -/
def doRequestCancel (cancelled : Bool) (args : ResourceArgs)
    (store : String → Option (List Char)) : Except Err (List Char) :=
  if cancelled then .error ⟨[]⟩ else doRequest args store

/-- C5: body size bound. For every DoRequest whose args carry a positive
MaxBodySize, a returned body is at most MaxBodySize long, and a longer
backend value is truncated to exactly the first MaxBodySize bytes; the
cancellable variant returns the same body when not cancelled. -/
theorem doRequest_body_size_bound
    (args : ResourceArgs) (store : String → Option (List Char)) (body : List Char)
    (hmbs : 0 < args.maxBodySize)
    (hok : doRequest args store = .ok body) :
    body.length ≤ args.maxBodySize
    ∧ (∀ value, store args.key = some value → args.maxBodySize < value.length →
        body = value.take args.maxBodySize ∧ body.length = args.maxBodySize)
    ∧ doRequestCancel false args store = .ok body := by
  refine ?_
  unfold doRequest at hok
  rcases hv : ValidateWithKey args with e | u
  · rw [hv] at hok
    cases hok
  · rw [hv] at hok
    rcases hs : store args.key with - | value
    · rw [hs] at hok
      cases hok
    · rw [hs] at hok
      simp only [Except.ok.injEq] at hok
      refine ⟨?_, ?_, ?_⟩
      · subst hok
        by_cases hlong : args.maxBodySize < value.length ∧ 0 < args.maxBodySize
        · rw [if_pos hlong, List.length_take]
          omega
        · rw [if_neg hlong]
          omega
      · intro v hv2 hlv
        injection hv2 with hveq
        subst hveq
        have hcond : args.maxBodySize < value.length ∧ 0 < args.maxBodySize := ⟨hlv, hmbs⟩
        rw [← hok, if_pos hcond]
        refine ⟨rfl, ?_⟩
        rw [List.length_take]
        omega
      · unfold doRequestCancel doRequest
        rw [if_neg (by simp), hv, hs]
        dsimp only
        rw [hok]

def argsW5 : ResourceArgs := ⟨"redis://localhost", true, 1000000, 3, "k"⟩

def storeW5 : String → Option (List Char) :=
  fun k => if k == "k" then some ("abcdef").data else none

theorem doRequest_body_size_bound_witness :
    ("abc").data.length ≤ argsW5.maxBodySize
    ∧ (∀ value, storeW5 argsW5.key = some value → argsW5.maxBodySize < value.length →
        ("abc").data = value.take argsW5.maxBodySize
        ∧ ("abc").data.length = argsW5.maxBodySize)
    ∧ doRequestCancel false argsW5 storeW5 = .ok ("abc").data :=
  doRequest_body_size_bound argsW5 storeW5 ("abc").data (by decide) (by decide)

/-- Modelled from the spec: what the fetch engine observes of one Resource
during one entity fetch: whether its circuit breaker is Open (skipped
without a network attempt), otherwise its DoRequest outcome (spec 4.7). -/
structure ResourceOutcome where
  cbOpen : Bool
  result : Except Err (List Char)
deriving DecidableEq, Repr

/-- Modelled from the spec: Entity.QueryResources over the ordered
resource list (spec 4.7): Open resources are skipped; the first success
wins; a Fatal error aborts the entity fetch; any other failure records
the failure and yields to the next resource; when every resource failed
or was skipped the entity fetch surfaces an error of kind Temporary. -/
def QueryResources : List ResourceOutcome → Except Err (List Char)
  | [] => .error ⟨[.temporary]⟩
  | r :: rs =>
    if r.cbOpen then QueryResources rs
    else
      match r.result with
      | .ok bytes => .ok bytes
      | .error e => if e.kinds.contains .fatal then .error e else QueryResources rs

/-- Modelled from the spec: the engine's per entity fallback (spec 4.7
step 5): a Temporary failure makes the entity's onError bytes the payload
while the error is still surfaced for logging. -/
def queryWithFallback (onError : List Char) (rs : List ResourceOutcome) :
    List Char × Option Err :=
  match QueryResources rs with
  | .ok bytes => (bytes, none)
  | .error e => if e.kinds.contains .temporary then (onError, some e) else ([], some e)

/-- A resource that does not contribute a payload: its breaker is Open or
its request fails with an error that is not Fatal. -/
def failsNonFatal (r : ResourceOutcome) : Bool :=
  r.cbOpen ||
    (match r.result with
     | .error e => !(e.kinds.contains .fatal)
     | .ok _ => false)

/-- C2: total failure fallback. When every resource of an entity fails
with a non fatal error or is skipped because its breaker is Open, the
entity fetch surfaces an error of kind Temporary, and the engine returns
the entity's onError bytes as the payload alongside that error. -/
theorem QueryResources_total_failure_fallback
    (onError : List Char) (rs : List ResourceOutcome)
    (hall : ∀ r ∈ rs, failsNonFatal r = true) :
    QueryResources rs = .error ⟨[.temporary]⟩
    ∧ queryWithFallback onError rs = (onError, some ⟨[.temporary]⟩) := by
  have hq : QueryResources rs = .error ⟨[.temporary]⟩ := by
    induction rs with
    | nil => rfl
    | cons r rs ih =>
      have hr := hall r (List.mem_cons_self r rs)
      have hrs : ∀ x ∈ rs, failsNonFatal x = true :=
        fun x hx => hall x (List.mem_cons_of_mem r hx)
      by_cases hc : r.cbOpen = true
      · simp only [QueryResources, hc, if_true]
        exact ih hrs
      · have hc2 : r.cbOpen = false := by
          cases hb : r.cbOpen
          · rfl
          · exact absurd hb hc
        rcases he : r.result with e | bytes
        · have hf : e.kinds.contains ErrKind.fatal = false := by
            unfold failsNonFatal at hr
            rw [hc2, he] at hr
            simpa using hr
          simp only [QueryResources, hc2, he, hf, Bool.false_eq_true, if_false]
          exact ih hrs
        · exfalso
          unfold failsNonFatal at hr
          rw [hc2, he] at hr
          simp at hr
  refine ⟨hq, ?_⟩
  unfold queryWithFallback
  rw [hq]
  simp

def onErrW2 : List Char := ("failed to load service 1").data

def rsW2 : List ResourceOutcome :=
  [⟨true, .ok ("never used").data⟩, ⟨false, .error ⟨[.alreadyClosed]⟩⟩,
   ⟨false, .error ⟨[.timeout]⟩⟩]

theorem QueryResources_total_failure_fallback_witness :
    QueryResources rsW2 = .error ⟨[.temporary]⟩
    ∧ queryWithFallback onErrW2 rsW2 = (onErrW2, some ⟨[.temporary]⟩) :=
  QueryResources_total_failure_fallback onErrW2 rsW2 (by decide)

/-- One write of a segment to the sink. A sink is the outcome list of the
successive write calls: none is a successful write, some e a write that
fails with error e; entries beyond the list succeed. An empty segment
writes nothing.
A failing write wraps the sink's error with the WriteFailed kind, as the
injector does before propagating it. -/
def writeSeg (seg : List Char) (sink : List (Option Err)) :
    Except Err (Nat × List (Option Err)) :=
  if seg.isEmpty then .ok (0, sink)
  else
    match sink with
    | [] => .ok (seg.length, [])
    | none :: rest => .ok (seg.length, rest)
    | some e :: _ => .error ⟨.writeFailed :: e.kinds⟩

/-- Modelled from the spec: the Injector of section 4.4 with its writes to
the destination sink made explicit, same traversal as injectChunk. On
success it returns the bytes written, the remaining tags and the rest of
the sink; the first failing write aborts immediately. -/
def injectChunkW : Nat → List Char → List DataTag → List (Option Err) →
    Except Err (Nat × List DataTag × List (Option Err))
  | _, chunk, [], sink =>
    match writeSeg chunk sink with
    | .error e => .error e
    | .ok (n, s) => .ok (n, [], s)
  | lo, chunk, t :: ts, sink =>
    if t.endp ≤ lo then injectChunkW lo chunk ts sink
    else if lo + chunk.length ≤ t.start then
      match writeSeg chunk sink with
      | .error e => .error e
      | .ok (n, s) => .ok (n, t :: ts, s)
    else if t.endp ≤ lo + chunk.length then
      match writeSeg (chunk.take (min t.start (lo + chunk.length) - lo)) sink with
      | .error e => .error e
      | .ok (n1, s1) =>
        match writeSeg t.data s1 with
        | .error e => .error e
        | .ok (n2, s2) =>
          match injectChunkW t.endp (chunk.drop (t.endp - lo)) ts s2 with
          | .error e => .error e
          | .ok (n3, ts2, s3) => .ok (n1 + n2 + n3, ts2, s3)
    else
      match writeSeg (chunk.take (min t.start (lo + chunk.length) - lo)) sink with
      | .error e => .error e
      | .ok (n, s) => .ok (n, t :: ts, s)

/-- Modelled from the spec: one DataTags.InjectContent call against a
possibly failing sink: the Go pair (n, err), the new state and the rest
of the sink. On a write failure the returned byte count is 0 (spec 4.4:
no partial accounting). -/
def InjectContentW (st : Nat × List DataTag) (chunk : List Char)
    (sink : List (Option Err)) :
    (Nat × Option Err) × (Nat × List DataTag) × List (Option Err) :=
  match injectChunkW st.1 chunk st.2 sink with
  | .ok (n, ts, s) => ((n, none), (st.1 + chunk.length, ts), s)
  | .error e => ((0, some e), (st.1 + chunk.length, st.2), sink)

theorem writeSeg_error {seg : List Char} {sink : List (Option Err)} {e : Err}
    (h : writeSeg seg sink = .error e) :
    ∃ e0, some e0 ∈ sink ∧ e = ⟨.writeFailed :: e0.kinds⟩ := by
  unfold writeSeg at h
  by_cases hs : seg.isEmpty
  · rw [if_pos hs] at h
    cases h
  · rw [if_neg hs] at h
    match sink, h with
    | some e0 :: rest, h =>
      injection h with he
      exact ⟨e0, List.mem_cons_self _ _, he.symm⟩

theorem writeSeg_ok_suffix {seg : List Char} {sink s : List (Option Err)} {n : Nat}
    (h : writeSeg seg sink = .ok (n, s)) : s.IsSuffix sink := by
  unfold writeSeg at h
  by_cases hs : seg.isEmpty
  · rw [if_pos hs] at h
    injection h with he
    injection he with h1 h2
    subst h2
    exact List.suffix_refl _
  · rw [if_neg hs] at h
    match sink, h with
    | [], h =>
      injection h with he
      injection he with h1 h2
      subst h2
      exact List.suffix_refl _
    | none :: rest, h =>
      injection h with he
      injection he with h1 h2
      subst h2
      exact List.suffix_cons none rest

theorem injectChunkW_error (ts : List DataTag) :
    ∀ (lo : Nat) (chunk : List Char) (sink : List (Option Err)) (e : Err),
    injectChunkW lo chunk ts sink = .error e →
    ∃ e0, some e0 ∈ sink ∧ e = ⟨.writeFailed :: e0.kinds⟩ := by
  induction ts with
  | nil =>
    intro lo chunk sink e h
    unfold injectChunkW at h
    split at h
    · rename_i e1 heq
      injection h with he
      subst he
      exact writeSeg_error heq
    · cases h
  | cons t ts ih =>
    intro lo chunk sink e h
    unfold injectChunkW at h
    split at h
    · exact ih lo chunk sink e h
    · split at h
      · split at h
        · rename_i e1 heq
          injection h with he
          subst he
          exact writeSeg_error heq
        · cases h
      · split at h
        · split at h
          · rename_i e1 heq
            injection h with he
            subst he
            exact writeSeg_error heq
          · rename_i n1 s1 heq1
            split at h
            · rename_i e2 heq2
              injection h with he
              subst he
              obtain ⟨e0, hm, hq⟩ := writeSeg_error heq2
              exact ⟨e0, (writeSeg_ok_suffix heq1).subset hm, hq⟩
            · rename_i n2 s2 heq2
              split at h
              · rename_i e3 heq3
                injection h with he
                subst he
                obtain ⟨e0, hm, hq⟩ := ih _ _ _ _ heq3
                exact ⟨e0,
                  ((writeSeg_ok_suffix heq2).trans (writeSeg_ok_suffix heq1)).subset hm, hq⟩
              · cases h
        · split at h
          · rename_i e1 heq
            injection h with he
            subst he
            exact writeSeg_error heq
          · cases h

/-- C4: injector write failure. For every injector state, chunk and sink,
when a write fails during an InjectContent call the call reports the
error immediately: the returned byte count is 0, the reported error
matches kind WriteFailed, and it wraps the sink's own error (so the
underlying kind still matches), as the test asserts for a sink that fails
with AlreadyClosed. -/
theorem InjectContent_write_failed
    (st : Nat × List DataTag) (chunk : List Char) (sink : List (Option Err)) (e : Err)
    (herr : (InjectContentW st chunk sink).1.2 = some e) :
    (InjectContentW st chunk sink).1.1 = 0
    ∧ ErrKind.writeFailed ∈ e.kinds
    ∧ ∃ e0, some e0 ∈ sink ∧ e = ⟨.writeFailed :: e0.kinds⟩ := by
  unfold InjectContentW at herr ⊢
  rcases hq : injectChunkW st.1 chunk st.2 sink with e1 | ⟨n, ts2, s⟩
  · rw [hq] at herr
    dsimp only at herr ⊢
    injection herr with he
    subst he
    obtain ⟨e0, hm, hw⟩ := injectChunkW_error st.2 st.1 chunk sink e1 hq
    refine ⟨rfl, ?_, e0, hm, hw⟩
    rw [hw]
    exact List.mem_cons_self _ _
  · rw [hq] at herr
    dsimp only at herr
    cases herr

def stW4 : Nat × List DataTag := (0, [⟨("X").data, 2, 4⟩])

def chunkW4 : List Char := ("abcdef").data

def sinkW4 : List (Option Err) := [none, some ⟨[.alreadyClosed]⟩]

def errW4 : Err := ⟨[.writeFailed, .alreadyClosed]⟩

theorem InjectContent_write_failed_witness :
    (InjectContentW stW4 chunkW4 sinkW4).1.1 = 0
    ∧ ErrKind.writeFailed ∈ errW4.kinds
    ∧ ∃ e0, some e0 ∈ sinkW4 ∧ errW4 = ⟨.writeFailed :: e0.kinds⟩ :=
  InjectContent_write_failed stW4 chunkW4 sinkW4 errW4 (by decide)

/-- C6: imbalanced attribute rejection. After the leading token is
discarded, an odd number of remaining tokens (keys and values do not pair
up, the way an attribute blob whose quoting is off tokenizes, as in the
S6 example where the dangling quote glues the equals sign into the value)
makes SplitAttributes fail with NotValid; on the S6 blob SplitAttributes
and ParseRaw fail with NotValid, and a body whose include tag carries
such an attribute blob parses to an error and no Entities. -/
theorem SplitAttributes_imbalanced_not_valid :
    (∀ raw : List Char, splitAttrFields raw ≠ [] →
        (splitAttrFields raw).length % 2 = 0 →
        SplitAttributes raw = .error ⟨[.notValid]⟩)
    ∧ SplitAttributes ("src='https://catalog.corestore.io/product='").data
        = .error ⟨[.notValid]⟩
    ∧ ParseRaw ⟨defaultSchemes, []⟩ ("src='https://catalog.corestore.io/product='").data
        = .error ⟨[.notValid]⟩
    ∧ Parse ⟨defaultSchemes, []⟩
        ("@<esi:include src='https://catalog.corestore.io/product=' x/>@").data
        = .error ⟨[.notValid]⟩ := by
  refine ⟨?_, by decide, by decide, by decide⟩
  intro raw hne heven
  unfold SplitAttributes
  cases hf : splitAttrFields raw with
  | nil => exact absurd hf hne
  | cons f rest =>
    rw [hf] at heven
    have hodd : rest.length % 2 = 1 := by
      simp only [List.length_cons] at heven
      omega
    simp [hodd]

/-- The attribute keys of the entity builder's table (spec 4.3). -/
def supportedKeys : List String :=
  ["src", "key", "timeout", "ttl", "maxbodysize", "onerror", "forwardheaders",
   "returnheaders", "forwardpostdata", "coalesce", "printdebug"]

theorem stepPair_unsupported (env : Env) (cfg : Config) (k v : String)
    (hk : k ∉ supportedKeys) (hx : startsWithList ("x").data k.data = false) :
    stepPair env cfg (k, v) = .error ⟨[.notSupported]⟩ := by
  simp only [supportedKeys, List.mem_cons, List.not_mem_nil, or_false, not_or] at hk
  obtain ⟨h1, h2, h3, h4, h5, h6, h7, h8, h9, h10, h11⟩ := hk
  simp [stepPair, h1, h2, h3, h4, h5, h6, h7, h8, h9, h10, h11, hx]

theorem stepPair_ignored (env : Env) (cfg : Config) (k v : String)
    (hk : k ∉ supportedKeys) (hx : startsWithList ("x").data k.data = true) :
    stepPair env cfg (k, v) = .ok cfg := by
  simp only [supportedKeys, List.mem_cons, List.not_mem_nil, or_false, not_or] at hk
  obtain ⟨h1, h2, h3, h4, h5, h6, h7, h8, h9, h10, h11⟩ := hk
  simp [stepPair, h1, h2, h3, h4, h5, h6, h7, h8, h9, h10, h11, hx]

/-- C7: unknown attribute keys. A pair whose key is outside the supported
table fails the entity build with NotSupported, except when the key
begins with x: then the pair is ignored wherever it stands and the entity
is built as if the pair were absent. Concretely, the test's xkey tag
parses to the same entity as the tag without it, and the ykey tag fails
with NotSupported. -/
theorem ParseRaw_unknown_keys :
    (∀ (env : Env) (cfg : Config) (k v : String) (rest : List (String × String)),
        k ∉ supportedKeys → startsWithList ("x").data k.data = false →
        foldPairs env cfg ((k, v) :: rest) = .error ⟨[.notSupported]⟩)
    ∧ (∀ (env : Env) (cfg : Config) (ps1 ps2 : List (String × String)) (k v : String),
        k ∉ supportedKeys → startsWithList ("x").data k.data = true →
        foldPairs env cfg (ps1 ++ (k, v) :: ps2) = foldPairs env cfg (ps1 ++ ps2))
    ∧ ParseRaw ⟨defaultSchemes, []⟩
        ("include xkey='product_234234' src=\"awsRedis2\"  returnheaders=\" all  \" forwardheaders=\" all  \"").data
        = ParseRaw ⟨defaultSchemes, []⟩
        ("include src=\"awsRedis2\"  returnheaders=\" all  \" forwardheaders=\" all  \"").data
    ∧ ParseRaw ⟨defaultSchemes, []⟩
        ("include ykey='product_234234' src=\"awsRedis2\"").data
        = .error ⟨[.notSupported]⟩ := by
  refine ⟨?_, ?_, by decide, by decide⟩
  · intro env cfg k v rest hk hx
    unfold foldPairs
    rw [stepPair_unsupported env cfg k v hk hx]
  · intro env cfg ps1 ps2 k v hk hx
    induction ps1 generalizing cfg with
    | nil =>
      show foldPairs env cfg ((k, v) :: ps2) = foldPairs env cfg ps2
      have hstep : foldPairs env cfg ((k, v) :: ps2)
          = match stepPair env cfg (k, v) with
            | .error e => .error e
            | .ok cfg2 => foldPairs env cfg2 ps2 := rfl
      rw [hstep, stepPair_ignored env cfg k v hk hx]
    | cons p ps1 ih =>
      show foldPairs env cfg (p :: (ps1 ++ (k, v) :: ps2))
          = foldPairs env cfg (p :: (ps1 ++ ps2))
      unfold foldPairs
      rcases hs : stepPair env cfg p with e | cfg2
      · rfl
      · exact ih cfg2

theorem scanAux_no_close :
    ∀ (l : List Char), findSub closeMark l = none → ∀ pos, scanAux pos l = [] := by
  intro l
  induction l with
  | nil => intro _ pos; rfl
  | cons c cs ih =>
    intro h pos
    rw [scanAux_cons]
    by_cases hpre : startsWithList esiOpenTag (c :: cs) = true
    · rw [if_pos hpre, h]
    · rw [if_neg hpre]
      exact ih (findSub_none_tail h) (pos + 1)

/-- C8: incomplete tag tolerance. A body that contains the opening marker
but no closing marker anywhere after it parses to no entities and no
error: the incomplete tag is silently dropped, so the body would pass
through unchanged. -/
theorem Parse_incomplete_tag_dropped (env : Env) (body : List Char)
    (hopen : (findSub esiOpenTag body).isSome = true)
    (hclose : findSub closeMark body = none) :
    Parse env body = .ok [] := by
  unfold Parse
  rw [scanAux_no_close body hclose 0]
  rfl

def bodyW8 : List Char := ("<esi:include src=\"...\" <b>").data

theorem Parse_incomplete_tag_dropped_witness :
    Parse ⟨defaultSchemes, []⟩ bodyW8 = .ok [] :=
  Parse_incomplete_tag_dropped ⟨defaultSchemes, []⟩ bodyW8 (by decide) (by decide)

/-- A 64 bit FNV-1a hash over a character sequence (code points stand in
for the utf-8 bytes; the inputs of interest are ascii). -/
def fnv1a64 (cs : List Char) : Nat :=
  cs.foldl (fun h c => ((h ^^^ c.toNat) * 1099511628211) % 18446744073709551616)
    14695981039346656037

/-- Modelled from the spec: Entities.UniqueID, the fixed 64 bit order
sensitive fingerprint over the concatenation of the members' raw
attributes in order (spec section 3 and glossary). The sources do not
ship the hash function itself; a 64 bit FNV-1a over the concatenation
stands in for the fixed hash. -/
def UniqueID (ets : List Entity) : Nat :=
  fnv1a64 (ets.map Entity.rawTag).flatten

/-- An entity carrying only its raw attribute bytes, as the fingerprint
test builds them. -/
def mkEnt (raw : String) : Entity := ⟨raw.data, ⟨[], 0, 0⟩, {}⟩

def entA : Entity := mkEnt
  "include src=\"testD1://micro1.service1\" src=\"testD1://micro2.service2\" timeout=\"5s\" maxbodysize=\"10kb\""

def entB : Entity := mkEnt
  "include src=\"testD2://micro1.service2\" src=\"testD1://micro2.service20\" timeout=\"1s\" maxbodysize=\"12kb\""

def entC : Entity := mkEnt
  "include src=\"testF2://micro1.service3\" src=\"testD1://micro2.service30\" timeout=\"6s\" maxbodysize=\"13kb\""

set_option maxRecDepth 40000 in
/-- C9: fingerprint determinism and order sensitivity. UniqueID depends
only on the members' raw attributes in order: collections with pairwise
equal raw attributes hash to the same fixed value, and re-parsing the
same bytes reproduces it; on the fingerprint test's three raw tags,
reordering members, removing one, or adding one changes the value. -/
theorem UniqueID_deterministic_order_sensitive :
    (∀ ets1 ets2 : List Entity, ets1.map Entity.rawTag = ets2.map Entity.rawTag →
        UniqueID ets1 = UniqueID ets2)
    ∧ (∀ (env : Env) (body : List Char) (e1 e2 : List Entity),
        Parse env body = .ok e1 → Parse env body = .ok e2 → UniqueID e1 = UniqueID e2)
    ∧ UniqueID [entA, entB, entC] ≠ UniqueID [entB, entA, entC]
    ∧ UniqueID [entA, entB, entC] ≠ UniqueID [entA, entB]
    ∧ UniqueID [entA, entB, entC] ≠ UniqueID [entA, entB, entC, entC] := by
  refine ⟨?_, ?_, by decide, by decide, by decide⟩
  · intro ets1 ets2 h
    unfold UniqueID
    rw [h]
  · intro env body e1 e2 h1 h2
    rw [h1] at h2
    injection h2 with he
    rw [he]

/-- An entity with the same raw attributes as entA but different splice
offsets and payload-independent fields fingerprints identically. -/
theorem UniqueID_deterministic_order_sensitive_witness :
    UniqueID [entA, entB] = UniqueID [⟨entA.rawTag, ⟨("x").data, 3, 9⟩, {}⟩, entB] :=
  UniqueID_deterministic_order_sensitive.1 _ _ (by decide)

/-- The fields of backend.RequestFuncArgs that header forwarding reads:
the explicit forward list, the all flag and the external request's
headers (name, values). -/
structure RequestFuncArgs where
  forwardHeaders : List String := []
  forwardHeadersAll : Bool := false
  header : List (String × List String) := []
deriving DecidableEq, Repr

/-- The connection control headers that are never forwarded (the test
names Host, Connection, Pragma and Cache-Control). -/
def dropHeadersFwd : List String := ["Cache-Control", "Connection", "Host", "Pragma"]

/-- The values of one header name, first entry wins. -/
def headerGet (h : List (String × List String)) (name : String) : List String :=
  match h with
  | [] => []
  | (k, vs) :: rest => if k == name then vs else headerGet rest name

/-- Byte order on character sequences, for the deterministic alphabetical
ordering of the forwarded snapshot (spec 4.7 step 1). -/
def leChars : List Char → List Char → Bool
  | [], _ => true
  | _ :: _, [] => false
  | a :: as, b :: bs =>
    if a.toNat < b.toNat then true
    else if b.toNat < a.toNat then false
    else leChars as bs

def insertSorted (x : String × List String) :
    List (String × List String) → List (String × List String)
  | [] => [x]
  | y :: ys => if leChars x.1.data y.1.data then x :: y :: ys else y :: insertSorted x ys

def sortHeader : List (String × List String) → List (String × List String)
  | [] => []
  | x :: xs => insertSorted x (sortHeader xs)

/-- Modelled from the spec: the key and value pairs
RequestFuncArgs.PrepareForwardHeaders emits (spec 4.7 step 1 and the
behaviour the forward headers test records): nothing when neither the all
flag nor an explicit list is set; with the all flag, every request header
in alphabetical order except the connection control ones, the explicit
list being ignored; otherwise the explicit names canonicalized, the
connection control ones dropped, with the request's values in order. -/
def prepareForwardPairs (rfa : RequestFuncArgs) : List (String × String) :=
  if !rfa.forwardHeadersAll && rfa.forwardHeaders.isEmpty then []
  else if rfa.forwardHeadersAll then
    ((sortHeader rfa.header).filter fun kv => !(dropHeadersFwd.contains kv.1)).flatMap
      fun kv => kv.2.map fun v => (kv.1, v)
  else
    rfa.forwardHeaders.flatMap fun hn =>
      if dropHeadersFwd.contains (canonicalHeaderKey hn) then []
      else (headerGet rfa.header (canonicalHeaderKey hn)).map
        fun v => (canonicalHeaderKey hn, v)

/-- Modelled from the spec: the flat string list the Go method returns,
keys and values interleaved. -/
def PrepareForwardHeaders (rfa : RequestFuncArgs) : List String :=
  (prepareForwardPairs rfa).flatMap fun kv => [kv.1, kv.2]

theorem mem_insertSorted {x y : String × List String}
    {l : List (String × List String)} (h : y ∈ insertSorted x l) : y = x ∨ y ∈ l := by
  induction l with
  | nil => simpa [insertSorted] using h
  | cons z zs ih =>
    unfold insertSorted at h
    by_cases hle : leChars x.1.data z.1.data = true
    · rw [if_pos hle] at h
      rcases List.mem_cons.1 h with rfl | h2
      · exact Or.inl rfl
      · exact Or.inr h2
    · rw [if_neg hle] at h
      rcases List.mem_cons.1 h with rfl | h2
      · exact Or.inr (List.mem_cons_self _ _)
      · rcases ih h2 with h3 | h3
        · exact Or.inl h3
        · exact Or.inr (List.mem_cons_of_mem _ h3)

theorem mem_sortHeader {y : String × List String}
    {l : List (String × List String)} (h : y ∈ sortHeader l) : y ∈ l := by
  induction l with
  | nil => simpa [sortHeader] using h
  | cons z zs ih =>
    unfold sortHeader at h
    rcases mem_insertSorted h with rfl | h2
    · exact List.mem_cons_self _ _
    · exact List.mem_cons_of_mem _ (ih h2)

/-- C10: forward header filtering. PrepareForwardHeaders never emits a
pair whose key is Host, Connection, Pragma or Cache-Control, even when
such a name stands in the explicit ForwardHeaders list; and when
ForwardHeadersAll is set the explicit list is ignored entirely. -/
theorem PrepareForwardHeaders_filtering :
    (∀ (rfa : RequestFuncArgs) (kv : String × String),
        kv ∈ prepareForwardPairs rfa → kv.1 ∉ dropHeadersFwd)
    ∧ (∀ (rfa : RequestFuncArgs) (fh fh2 : List String), rfa.forwardHeadersAll = true →
        PrepareForwardHeaders { rfa with forwardHeaders := fh }
          = PrepareForwardHeaders { rfa with forwardHeaders := fh2 }) := by
  constructor
  · intro rfa kv hmem
    unfold prepareForwardPairs at hmem
    split at hmem
    · cases hmem
    · split at hmem
      · simp only [List.mem_flatMap, List.mem_filter, List.mem_map] at hmem
        obtain ⟨kv0, ⟨hmem0, hfilter⟩, v, hvmem, rfl⟩ := hmem
        intro hdrop
        rw [Bool.not_eq_true'] at hfilter
        have hmemd : kv0.1 ∈ dropHeadersFwd := hdrop
        have hfalse := List.elem_eq_true_of_mem hmemd
        rw [show dropHeadersFwd.contains kv0.1 = dropHeadersFwd.elem kv0.1 from rfl,
          hfalse] at hfilter
        cases hfilter
      · simp only [List.mem_flatMap] at hmem
        obtain ⟨hn, hnmem, hmem2⟩ := hmem
        by_cases hcn : dropHeadersFwd.contains (canonicalHeaderKey hn) = true
        · rw [if_pos hcn] at hmem2
          cases hmem2
        · rw [if_neg hcn] at hmem2
          simp only [List.mem_map] at hmem2
          obtain ⟨v, hv, rfl⟩ := hmem2
          intro hdrop
          exact hcn (List.elem_eq_true_of_mem hdrop)
  · intro rfa fh fh2 hAll
    unfold PrepareForwardHeaders prepareForwardPairs
    simp [hAll]

/-- The external request headers of the forward headers test. -/
def reqHeaderTest : List (String × List String) :=
  [("Host", ["www.example.com"]),
   ("Connection", ["keep-alive"]),
   ("Pragma", ["no-cache"]),
   ("Cache-Control", ["no-cache"]),
   ("Upgrade-Insecure-Requests", ["1"]),
   ("User-Agent", ["Mozilla/5.0 (Macintosh; Intel Mac OS X 10)"]),
   ("Accept", ["text/html,application/xhtml+xml,application/xml;q=0.9,image/webp,*/*;q=0.8"]),
   ("DNT", ["1"]),
   ("Referer", ["https://www.example.com/"]),
   ("Accept-Encoding", ["gzip, deflate, sdch, br"]),
   ("Avail-Dictionary", ["lhdx6rYE"]),
   ("Accept-Language", ["en-US,en;q=0.8"]),
   ("Cookie",
    ["x-wl-uid=1vnTVF5WyZIe5Fymf2a4H+pFPyJa4wxNmzCKdImj1UqQPV5ecUs2sm46vDbGJUI+sE=",
     "session-token=AIo5Vf+c/GhoTRWq4V; JSESSIONID=58B7C7A24731R869B75D142E970CEAD4; csm-hit=D5P2DBNF895ZDJTCTEQ7+s-D5P2DBNF895ZDJTCTEQ7|1483297885458; session-id-time=2082754801l"])]

set_option maxRecDepth 40000 in
/-- The forward headers test's expectations hold of the model: the
explicit list Cookie and Pragma forwards only the two Cookie pairs
(Pragma is dropped), the all flag forwards ten pairs (the four
connection control headers of the thirteen are dropped, Cookie stays
multi valued), and no configured list forwards nothing. -/
theorem prepareForwardHeaders_test_cases :
    PrepareForwardHeaders ⟨["Cookie", "Pragma"], false, reqHeaderTest⟩
      = ["Cookie",
         "x-wl-uid=1vnTVF5WyZIe5Fymf2a4H+pFPyJa4wxNmzCKdImj1UqQPV5ecUs2sm46vDbGJUI+sE=",
         "Cookie",
         "session-token=AIo5Vf+c/GhoTRWq4V; JSESSIONID=58B7C7A24731R869B75D142E970CEAD4; csm-hit=D5P2DBNF895ZDJTCTEQ7+s-D5P2DBNF895ZDJTCTEQ7|1483297885458; session-id-time=2082754801l"]
    ∧ (PrepareForwardHeaders ⟨["Cookie"], true, reqHeaderTest⟩).length = 20
    ∧ PrepareForwardHeaders ⟨[], false, reqHeaderTest⟩ = [] :=
  ⟨by decide, by decide, by decide⟩

end CaddyEsi
